import Mathlib

/-!
Verification development for the semantic-html-search backend
(src/backend/chunking.py and src/backend/vector_store.py).

The chunker is embedded as a fuel-indexed loop over an `Int` cursor with
Python slice semantics, exactly mirroring `TextChunker.chunk_text`.  The
vector store is embedded with explicit state passing: the Pinecone index is
a list of (namespace, vector) entries and the primitives the source calls
(`delete(delete_all=True, namespace=…)`, `upsert`, `describe_index_stats`)
are given their documented semantics.  The tokenizer and the embedding
model are external collaborators and appear as function parameters.
-/

/-- Python value stored in a chunk dictionary: the chunk dicts built by
`chunk_text` hold strings and ints. -/
inductive PyVal where
  | str (s : String)
  | int (n : Int)
deriving DecidableEq, Repr

/-- A Python dict with string keys, as an association list (insertion order,
first binding wins on lookup). -/
abbrev Dict := List (String × PyVal)

/-- Error kinds raised by the embedded code.  `emptyInput` is the
`ValueError("Cannot index empty chunks")` of `index_chunks`, `notIndexed`
the `ValueError("Vector store not indexed")` of `search`, `keyError k` a
Python `KeyError` on dictionary access `chunk[k]`, and
`invalidConfiguration` is the error kind the spec's §7 taxonomy assigns to
a chunker built with `overlap_tokens ≥ max_tokens`. -/
inductive VSError where
  | emptyInput
  | notIndexed
  | keyError (k : String)
  | invalidConfiguration
deriving DecidableEq, Repr

/-- Dictionary access `d[k]`: the value under `k`, or a `KeyError`. -/
def dictGet (d : Dict) (k : String) : Except VSError PyVal :=
  match d.lookup k with
  | some v => .ok v
  | none => .error (.keyError k)

/-- One chunk record as appended by `TextChunker.chunk_text`
(chunking.py lines 29-35): keys `chunk_index`, `text`, `start_token`,
`end_token`, `token_count`.  The token offsets are Python ints. -/
structure Chunk where
  chunk_index : Nat
  text : String
  start_token : Int
  end_token : Int
  token_count : Nat
deriving DecidableEq, Repr

/-- The dictionary literal that `chunk_text` appends for one chunk, with its
exact keys in source order. -/
def Chunk.toDict (c : Chunk) : Dict :=
  [("chunk_index", .int c.chunk_index),
   ("text", .str c.text),
   ("start_token", .int c.start_token),
   ("end_token", .int c.end_token),
   ("token_count", .int c.token_count)]

/-- Configuration state of `TextChunker.__init__` (chunking.py lines 9-13):
the constructor stores `max_tokens` and `overlap_tokens` unchanged.  The
tokenizer it also loads is an external collaborator and is passed to
`chunk_text` separately. -/
structure TextChunker where
  max_tokens : Int
  overlap_tokens : Int
deriving DecidableEq, Repr

/-- Embedding of `TextChunker.__init__`: the source performs no validation
of the configuration whatsoever, so construction always succeeds and the
arguments are stored as given (never clamped). -/
def TextChunker.init (max_tokens overlap_tokens : Int) :
    Except VSError TextChunker :=
  .ok { max_tokens := max_tokens, overlap_tokens := overlap_tokens }

/-- Normalization of one Python slice bound for a list of length `n`:
negative indices count from the end and both directions clamp into
`[0, n]`. -/
def pyIdx (n : Nat) (i : Int) : Nat :=
  if i < 0 then ((n : Int) + i).toNat else min i.toNat n

/-- Python list slice `xs[a:b]` (step 1). -/
def pySlice {α : Type} (xs : List α) (a b : Int) : List α :=
  let lo := pyIdx xs.length a
  let hi := pyIdx xs.length b
  (xs.drop lo).take (hi - lo)

/-- The `while start_idx < total_tokens` loop of `chunk_text`
(chunking.py lines 24-40), with an explicit fuel bound: `none` means the
fuel ran out before the loop exited (the loop body itself never raises).
`start_idx` is an `Int` because Python's `start_idx = end_idx -
self.overlap_tokens` can go negative when `overlap_tokens ≥ max_tokens`. -/
def chunkLoop (c : TextChunker) (d : List Nat → String) (tokens : List Nat) :
    Nat → Int → Nat → Option (List Chunk)
  | 0, _, _ => none
  | fuel + 1, start_idx, chunk_index =>
    if start_idx < (tokens.length : Int) then
      let end_idx : Int := min (start_idx + c.max_tokens) (tokens.length : Int)
      let chunk_tokens := pySlice tokens start_idx end_idx
      let ch : Chunk :=
        { chunk_index := chunk_index,
          text := d chunk_tokens,
          start_token := start_idx,
          end_token := end_idx,
          token_count := chunk_tokens.length }
      if (tokens.length : Int) ≤ end_idx then
        some [ch]
      else
        (chunkLoop c d tokens fuel (end_idx - c.overlap_tokens)
            (chunk_index + 1)).map (ch :: ·)
    else
      some []

/-- Embedding of `TextChunker.chunk_text` (chunking.py lines 15-43).  The
external tokenizer is split into its two consulted capabilities: the claims
quantify over the token sequence `tokens` (the result of
`tokenizer.encode`) and over `d`, the `tokenizer.decode` black box.  Fuel
`tokens.length + 1` is proved sufficient whenever
`overlap_tokens < max_tokens`; outside that precondition the Python loop
can run forever, which the embedding reports as `none`. -/
def TextChunker.chunk_text (c : TextChunker) (d : List Nat → String)
    (tokens : List Nat) : Option (List Chunk) :=
  chunkLoop c d tokens (tokens.length + 1) 0 0

/-- Vector id `f"chunk_{idx}_{int(time.time() * 1000)}"` of
vector_store.py line 118.  Both components are decimal numbers and the
underscore separators make the format injective in the pair
`(idx, timestamp)`, so the id is modelled as that pair; `ts` is the
external millisecond clock reading, passed in as a parameter. -/
structure VecId where
  idx : Nat
  ts : Nat
deriving DecidableEq, Repr

/-- The metadata dict built for one vector in `index_chunks`
(vector_store.py lines 122-127): `text`, `start` and `end` are read from
the chunk dict and `chunk_index` is the enumeration position. -/
structure VecMeta where
  text : PyVal
  start : PyVal
  end_ : PyVal
  chunk_index : Nat
deriving DecidableEq, Repr

/-- One vector record as prepared for upsert: id, embedding values and
metadata.  The embedding values have the abstract type `V` of the external
sentence-transformer model's output. -/
structure PVector (V : Type) where
  id : VecId
  values : V
  metadata : VecMeta
deriving DecidableEq, Repr

/-- State of the Pinecone index: the entries currently stored, each tagged
with the namespace it lives in. -/
structure PineconeState (V : Type) where
  vectors : List (String × PVector V)
deriving DecidableEq, Repr

/-- Pinecone `index.delete(delete_all=True, namespace=ns)`: removes every
vector of namespace `ns` and nothing else. -/
def pcDeleteAll {V : Type} (ns : String) (s : PineconeState V) :
    PineconeState V :=
  { vectors := s.vectors.filter (fun e => e.1 != ns) }

/-- Pinecone upsert of a single vector into namespace `ns`: overwrites the
entry with the same id in that namespace if one exists, otherwise inserts
the vector. -/
def pcUpsertOne {V : Type} (ns : String) (v : PVector V)
    (s : PineconeState V) : PineconeState V :=
  if s.vectors.any (fun e => e.1 == ns && e.2.id == v.id) then
    { vectors := s.vectors.map
        (fun e => if e.1 == ns && e.2.id == v.id then (ns, v) else e) }
  else
    { vectors := s.vectors ++ [(ns, v)] }

/-- The batched upsert loop of `index_chunks` (vector_store.py lines
130-137): the batches of 100 partition the vector list in order, so the
loop upserts every prepared vector in input order. -/
def pcUpsertList {V : Type} (ns : String) (vs : List (PVector V))
    (s : PineconeState V) : PineconeState V :=
  vs.foldl (fun st v => pcUpsertOne ns v st) s

/-- The `vector_count` of namespace `ns` in
`index.describe_index_stats()`. -/
def nsCount {V : Type} (ns : String) (s : PineconeState V) : Nat :=
  (s.vectors.filter (fun e => e.1 == ns)).length

/-- The `total_vector_count` of `index.describe_index_stats()`. -/
def totalCount {V : Type} (s : PineconeState V) : Nat :=
  s.vectors.length

namespace VectorStore

/-- The `total_vector_count` entry of the dict returned by
`VectorStore.get_stats` (vector_store.py lines 224-236); the remaining
entries (index name, dimension, metric) are fixed configuration. -/
def get_stats {V : Type} (s : PineconeState V) : Nat :=
  totalCount s

/-- The `for idx, (chunk, embedding) in enumerate(zip(chunks, embeddings))`
loop of `index_chunks` (vector_store.py lines 115-128), carrying the
running enumeration index: each step reads `chunk['text']`,
`chunk['start']` and `chunk['end']` (a missing key raises `KeyError`
before any later vector is built) and assembles one vector record. -/
def buildVectors {V : Type} (now : Nat) :
    Nat → List (Dict × V) → Except VSError (List (PVector V))
  | _, [] => .ok []
  | idx, (c, emb) :: rest => do
    let t ← dictGet c "text"
    let st ← dictGet c "start"
    let en ← dictGet c "end"
    let vs ← buildVectors now (idx + 1) rest
    .ok ({ id := { idx := idx, ts := now },
           values := emb,
           metadata :=
             { text := t, start := st, end_ := en, chunk_index := idx } } :: vs)

/-- Embedding of `VectorStore.index_chunks` (vector_store.py lines 81-140)
with explicit state passing.  `encode` is the external
sentence-transformer model (`self.model.encode`, a black box applied
text-by-text) and `now` the external clock reading used in the vector ids.
A failure carries the state as already mutated when the exception was
raised: the empty-input check precedes every Pinecone call, while the
namespace delete (performed only when `ns` is non-empty) precedes the
text-extraction comprehension and the metadata-building loop. -/
def index_chunks {V : Type} (encode : PyVal → V) (now : Nat)
    (chunks : List Dict) (ns : String) (s : PineconeState V) :
    Except (VSError × PineconeState V) (PineconeState V) :=
  if chunks.isEmpty then
    .error (.emptyInput, s)
  else
    let s1 := if ns ≠ "" then pcDeleteAll ns s else s
    match chunks.mapM (fun c => dictGet c "text") with
    | .error e => .error (e, s1)
    | .ok texts =>
      let embeddings := texts.map encode
      match buildVectors now 0 (chunks.zip embeddings) with
      | .error e => .error (e, s1)
      | .ok vectors => .ok (pcUpsertList ns vectors s1)

/-- The formatted result list built from the Pinecone matches in `search`
(vector_store.py lines 191-201): each match's metadata is projected to the
`text`/`start`/`end` chunk dict that is paired with the score. -/
structure FormattedChunk where
  text : PyVal
  start : PyVal
  end_ : PyVal
deriving DecidableEq, Repr

/-- Result formatting loop of `search`: the metadata always carries the
three projected fields, and the score is returned unchanged. -/
def formatMatches {S : Type} (ms : List (VecMeta × S)) :
    List (FormattedChunk × S) :=
  ms.map (fun p =>
    ({ text := p.1.text, start := p.1.start, end_ := p.1.end_ }, p.2))

/-- Embedding of `VectorStore.search` (vector_store.py lines 142-204).
`pcQuery` is the external Pinecone `index.query` call (ranking happens
inside the service), `encode` the external embedding model.  The
emptiness check mirrors the source: with a non-empty namespace the
namespace's `vector_count` is consulted, otherwise `total_vector_count`;
both failure paths surface as the `ValueError("Vector store not indexed")`
that the enclosing `except` clause re-raises. -/
def search {V S : Type} (encode : PyVal → V)
    (pcQuery : PineconeState V → V → Nat → String → List (VecMeta × S))
    (query : String) (top_k : Nat) (ns : String) (s : PineconeState V) :
    Except VSError (List (FormattedChunk × S)) :=
  if ns ≠ "" then
    if nsCount ns s = 0 then .error .notIndexed
    else .ok (formatMatches (pcQuery s (encode (.str query)) top_k ns))
  else if totalCount s = 0 then .error .notIndexed
  else .ok (formatMatches (pcQuery s (encode (.str query)) top_k ns))

/-- Embedding of `VectorStore.clear` (vector_store.py lines 206-218): a
non-empty namespace argument clears that namespace, otherwise the whole
index is emptied (`index.delete(delete_all=True)` per the method's
"Clearing all vectors from index" behaviour). -/
def clear {V : Type} (ns : String) (s : PineconeState V) : PineconeState V :=
  if ns ≠ "" then pcDeleteAll ns s else { vectors := [] }

end VectorStore

/-- Ceiling division on naturals, used to state the spec's chunk-count
formula `ceil((N - overlap) / (max - overlap))`. -/
def ceilNat (a b : Nat) : Nat := (a + b - 1) / b

/-- Number of chunks the loop emits from cursor position
`j * (max - overlap)` onwards (spec-side closed form, proved to match the
code). -/
def kFrom (m o N j : Nat) : Nat :=
  max 1 (ceilNat (N - j * (m - o) - o) (m - o))

/-- Closed form of the `j`-th chunk the loop emits under the precondition
`overlap < max`: cursor `j * (max - overlap)`, window end capped at the
token count (spec-side closed form, proved to match the code). -/
def chunkSpec (m o : Nat) (d : List Nat → String) (tokens : List Nat)
    (j : Nat) : Chunk :=
  let s := j * (m - o)
  let e := min (s + m) tokens.length
  let ct := (tokens.drop s).take (e - s)
  { chunk_index := j,
    text := d ct,
    start_token := (s : Int),
    end_token := (e : Int),
    token_count := ct.length }

/-- The chunk count of the whole run (spec-side closed form). -/
def numChunks (m o N : Nat) : Nat :=
  if N = 0 then 0 else kFrom m o N 0

/-- Nat-level rendering of the chunking loop, used as a bridge: under
`overlap < max` the `Int` cursor never goes negative and the Python slice
is a plain drop/take. -/
def chunkLoopN (m o : Nat) (d : List Nat → String) (tokens : List Nat) :
    Nat → Nat → Nat → Option (List Chunk)
  | 0, _, _ => none
  | fuel + 1, start, ci =>
    if start < tokens.length then
      let e := min (start + m) tokens.length
      let ct := (tokens.drop start).take (e - start)
      let ch : Chunk :=
        { chunk_index := ci, text := d ct, start_token := (start : Int),
          end_token := (e : Int), token_count := ct.length }
      if tokens.length ≤ e then some [ch]
      else (chunkLoopN m o d tokens fuel (e - o) (ci + 1)).map (ch :: ·)
    else
      some []

/-- Default stand-in for the external `tokenizer.decode` black box, used to
instantiate witnesses on concrete inputs. -/
def decode0 : List Nat → String := fun _ => ""

/-! ### Arithmetic facts about the chunk-count closed form -/

theorem one_le_ceilNat {x b : Nat} (hb : 0 < b) (hx : 0 < x) :
    1 ≤ ceilNat x b := by
  unfold ceilNat
  rw [Nat.le_div_iff_mul_le hb]
  omega

theorem ceilNat_le_one {x b : Nat} (hb : 0 < b) (hx : x ≤ b) :
    ceilNat x b ≤ 1 := by
  unfold ceilNat
  have h : (x + b - 1) / b < 2 := by
    rw [Nat.div_lt_iff_lt_mul hb]
    omega
  omega

theorem ceilNat_succ {x b : Nat} (hb : 0 < b) (hx : b < x) :
    ceilNat x b = ceilNat (x - b) b + 1 := by
  unfold ceilNat
  have h : x + b - 1 = (x - b + b - 1) + b := by omega
  rw [h, Nat.add_div_right _ hb]

theorem ceilNat_le_self {x b : Nat} (hb : 0 < b) : ceilNat x b ≤ x := by
  rcases Nat.eq_zero_or_pos x with hx | hx
  · subst hx
    unfold ceilNat
    have : (0 + b - 1) / b < 1 := by
      rw [Nat.div_lt_iff_lt_mul hb]; omega
    omega
  · unfold ceilNat
    have h : (x + b - 1) / b < x + 1 := by
      rw [Nat.div_lt_iff_lt_mul hb]
      have h1 : x ≤ x * b := Nat.le_mul_of_pos_right x hb
      have h2 : (x + 1) * b = x * b + b := by ring
      omega
    omega

theorem le_ceilNat_mul {b : Nat} (hb : 0 < b) (x : Nat) :
    x ≤ ceilNat x b * b := by
  unfold ceilNat
  have h1 := Nat.div_add_mod (x + b - 1) b
  have h2 : (x + b - 1) % b < b := Nat.mod_lt _ hb
  have h3 : ((x + b - 1) / b) * b = b * ((x + b - 1) / b) := Nat.mul_comm _ _
  omega

theorem one_le_kFrom (m o N j : Nat) : 1 ≤ kFrom m o N j :=
  le_max_left _ _

theorem kFrom_eq_one {m o N j : Nat} (ho : o < m)
    (hbig : N ≤ j * (m - o) + m) : kFrom m o N j = 1 := by
  unfold kFrom
  have hb : 0 < m - o := by omega
  have hle : ceilNat (N - j * (m - o) - o) (m - o) ≤ 1 :=
    ceilNat_le_one hb (by omega)
  omega

theorem kFrom_step {m o N j : Nat} (ho : o < m)
    (hsmall : j * (m - o) + m < N) :
    kFrom m o N j = kFrom m o N (j + 1) + 1 := by
  unfold kFrom
  have hb : 0 < m - o := by omega
  have hdist : (j + 1) * (m - o) = j * (m - o) + (m - o) := by ring
  have hxj : m - o < N - j * (m - o) - o := by omega
  have hsub : N - j * (m - o) - o - (m - o) = N - (j + 1) * (m - o) - o := by
    omega
  have hx1 : 0 < N - (j + 1) * (m - o) - o := by omega
  rw [ceilNat_succ hb hxj, hsub]
  have h1 := one_le_ceilNat hb hx1
  have h2 := one_le_ceilNat hb (show 0 < N - j * (m - o) - o by omega)
  omega

/-! ### Bridge from the Int-cursor loop to its Nat rendering -/

theorem pyIdx_natCast (n a : Nat) : pyIdx n (a : Nat) = min a n := by
  unfold pyIdx
  rw [if_neg (by exact_mod_cast Nat.not_lt_zero a)]
  simp

theorem pySlice_natCast {α : Type} (xs : List α) (a b : Nat) :
    pySlice xs (a : Nat) (b : Nat) =
      (xs.drop (min a xs.length)).take (min b xs.length - min a xs.length) := by
  unfold pySlice
  rw [pyIdx_natCast, pyIdx_natCast]

theorem chunkLoop_eq_chunkLoopN (m o : Nat) (ho : o < m)
    (d : List Nat → String) (tokens : List Nat) :
    ∀ (fuel start ci : Nat),
      chunkLoop ⟨(m : Int), (o : Int)⟩ d tokens fuel (start : Nat) ci =
        chunkLoopN m o d tokens fuel start ci := by
  intro fuel
  induction fuel with
  | zero => intro start ci; rfl
  | succ fuel ih =>
    intro start ci
    rw [chunkLoop, chunkLoopN]
    by_cases hs : start < tokens.length
    · have hs' : ((start : Nat) : Int) < (tokens.length : Int) := by
        exact_mod_cast hs
      rw [if_pos hs', if_pos hs]
      have hmin : min ((start : Nat) + (m : Int)) ((tokens.length : Nat) : Int) =
          ((min (start + m) tokens.length : Nat) : Int) := by
        push_cast
        rfl
      have hslice :
          pySlice tokens (start : Nat)
              ((min (start + m) tokens.length : Nat) : Int) =
            (tokens.drop start).take (min (start + m) tokens.length - start) := by
        rw [pySlice_natCast]
        have h1 : min start tokens.length = start := min_eq_left (le_of_lt hs)
        have h2 : min (min (start + m) tokens.length) tokens.length =
            min (start + m) tokens.length := min_le_right _ _ |> min_eq_left
        rw [h1, h2]
      simp only [hmin, hslice]
      by_cases hbrk : tokens.length ≤ min (start + m) tokens.length
      · have hbrk' : ((tokens.length : Nat) : Int) ≤
            ((min (start + m) tokens.length : Nat) : Int) := by exact_mod_cast hbrk
        rw [if_pos hbrk', if_pos hbrk]
      · have hbrk' : ¬ ((tokens.length : Nat) : Int) ≤
            ((min (start + m) tokens.length : Nat) : Int) := by
          exact_mod_cast hbrk
        rw [if_neg hbrk', if_neg hbrk]
        have heq : min (start + m) tokens.length = start + m := by omega
        have hsub : ((min (start + m) tokens.length : Nat) : Int) - (o : Int) =
            ((min (start + m) tokens.length - o : Nat) : Int) := by
          rw [heq]
          push_cast [Nat.cast_sub (by omega : o ≤ start + m)]
          ring
        rw [hsub, ih]
    · have hs' : ¬ ((start : Nat) : Int) < (tokens.length : Int) := by
        exact_mod_cast hs
      rw [if_neg hs', if_neg hs]

/-! ### Closed form of the chunking loop under `overlap < max` -/

theorem chunkLoopN_closed (m o : Nat) (ho : o < m) (d : List Nat → String)
    (tokens : List Nat) :
    ∀ (fuel j : Nat), j * (m - o) < tokens.length →
      kFrom m o tokens.length j ≤ fuel →
      chunkLoopN m o d tokens fuel (j * (m - o)) j =
        some ((List.range' j (kFrom m o tokens.length j)).map
          (chunkSpec m o d tokens)) := by
  intro fuel
  induction fuel with
  | zero =>
    intro j hj hf
    have h1 := one_le_kFrom m o tokens.length j
    omega
  | succ fuel ih =>
    intro j hj hf
    rw [chunkLoopN, if_pos hj]
    by_cases hbig : tokens.length ≤ j * (m - o) + m
    · have he : min (j * (m - o) + m) tokens.length = tokens.length := by omega
      have hk := kFrom_eq_one ho hbig
      rw [hk]
      simp only [he, le_refl, if_true, List.range'_one, List.map_cons,
        List.map_nil, chunkSpec]
    · have hlt : j * (m - o) + m < tokens.length := by omega
      have he : min (j * (m - o) + m) tokens.length = j * (m - o) + m := by
        omega
      have hdist : (j + 1) * (m - o) = j * (m - o) + (m - o) := by ring
      have hnext : j * (m - o) + m - o = (j + 1) * (m - o) := by omega
      have hj' : (j + 1) * (m - o) < tokens.length := by omega
      have hks := kFrom_step ho hlt
      have hf' : kFrom m o tokens.length (j + 1) ≤ fuel := by omega
      have hrec := ih (j + 1) hj' hf'
      simp only [he]
      rw [if_neg (by omega : ¬ tokens.length ≤ j * (m - o) + m)]
      rw [hnext, hrec, hks, List.range'_succ, List.map_cons]
      simp only [Option.map_some', chunkSpec]
      rw [he]

theorem kFrom_zero_le {m o N : Nat} (ho : o < m) (hN : 0 < N) :
    kFrom m o N 0 ≤ N := by
  have hb : 0 < m - o := by omega
  have hcl := ceilNat_le_self (x := N - 0 * (m - o) - o) hb
  unfold kFrom
  have h00 : 0 * (m - o) = 0 := Nat.zero_mul _
  omega

theorem chunk_text_closed (m o : Nat) (ho : o < m) (d : List Nat → String)
    (tokens : List Nat) :
    TextChunker.chunk_text ⟨(m : Int), (o : Int)⟩ d tokens =
      some ((List.range (numChunks m o tokens.length)).map
        (chunkSpec m o d tokens)) := by
  unfold TextChunker.chunk_text
  rw [show (0 : Int) = ((0 : Nat) : Int) from rfl,
      chunkLoop_eq_chunkLoopN m o ho d tokens]
  rcases Nat.eq_zero_or_pos tokens.length with hN | hN
  · rw [chunkLoopN, if_neg (by omega), numChunks, if_pos hN]
    simp
  · have hj : 0 * (m - o) < tokens.length := by
      rw [Nat.zero_mul]; omega
    have hk0 := kFrom_zero_le (N := tokens.length) ho hN
    have h := chunkLoopN_closed m o ho d tokens (tokens.length + 1) 0 hj
      (by omega)
    rw [Nat.zero_mul] at h
    rw [h, numChunks, if_neg (by omega), List.range_eq_range']

theorem numChunks_pos {m o N : Nat} (hN : 0 < N) : 1 ≤ numChunks m o N := by
  unfold numChunks
  rw [if_neg (by omega)]
  exact one_le_kFrom m o N 0

theorem start_lt_of_lt_numChunks {m o N j : Nat} (ho : o < m) (hN : 0 < N)
    (hj : j < numChunks m o N) : j * (m - o) < N := by
  unfold numChunks at hj
  rw [if_neg (by omega)] at hj
  unfold kFrom at hj
  rcases Nat.eq_zero_or_pos j with rfl | hj0
  · rw [Nat.zero_mul]; omega
  · have hb : 0 < m - o := by omega
    have hc : j + 1 ≤ ceilNat (N - 0 * (m - o) - o) (m - o) := by omega
    unfold ceilNat at hc
    rw [Nat.le_div_iff_mul_le hb] at hc
    have hd : (j + 1) * (m - o) = j * (m - o) + (m - o) := by ring
    have h00 : 0 * (m - o) = 0 := Nat.zero_mul _
    omega

theorem mid_end_lt {m o N j : Nat} (ho : o < m) (hN : 0 < N)
    (hj : j + 1 < numChunks m o N) : j * (m - o) + m < N := by
  unfold numChunks at hj
  rw [if_neg (by omega)] at hj
  unfold kFrom at hj
  have hb : 0 < m - o := by omega
  have hc : j + 2 ≤ ceilNat (N - 0 * (m - o) - o) (m - o) := by omega
  unfold ceilNat at hc
  rw [Nat.le_div_iff_mul_le hb] at hc
  have hd : (j + 2) * (m - o) = j * (m - o) + (m - o) + (m - o) := by ring
  have h00 : 0 * (m - o) = 0 := Nat.zero_mul _
  omega

theorem numChunks_last_end {m o N : Nat} (ho : o < m) (hN : 0 < N) :
    N ≤ (numChunks m o N - 1) * (m - o) + m := by
  unfold numChunks
  rw [if_neg (by omega)]
  unfold kFrom
  have hb : 0 < m - o := by omega
  have h00 : 0 * (m - o) = 0 := Nat.zero_mul _
  by_cases hNm : N ≤ m
  · have hle : ceilNat (N - 0 * (m - o) - o) (m - o) ≤ 1 :=
      ceilNat_le_one hb (by omega)
    have hmax : max 1 (ceilNat (N - 0 * (m - o) - o) (m - o)) = 1 := by omega
    rw [hmax]
    have h1 : (1 - 1) * (m - o) = 0 := by norm_num
    omega
  · have hge := le_ceilNat_mul hb (N - 0 * (m - o) - o)
    have h1 : 1 ≤ ceilNat (N - 0 * (m - o) - o) (m - o) :=
      one_le_ceilNat hb (by omega)
    have hmax : max 1 (ceilNat (N - 0 * (m - o) - o) (m - o)) =
        ceilNat (N - 0 * (m - o) - o) (m - o) := by omega
    rw [hmax]
    have hd : (ceilNat (N - 0 * (m - o) - o) (m - o) - 1) * (m - o) =
        ceilNat (N - 0 * (m - o) - o) (m - o) * (m - o) - 1 * (m - o) :=
      Nat.sub_mul _ _ _
    have h1m : 1 * (m - o) = m - o := Nat.one_mul _
    omega

theorem numChunks_formula {m o N : Nat} (ho : o < m) (hN : 0 < N) :
    numChunks m o N = if N ≤ m then 1 else ceilNat (N - o) (m - o) := by
  unfold numChunks kFrom
  rw [if_neg (by omega), Nat.zero_mul, Nat.sub_zero]
  have hb : 0 < m - o := by omega
  by_cases hNm : N ≤ m
  · rw [if_pos hNm]
    have hle : ceilNat (N - o) (m - o) ≤ 1 := ceilNat_le_one hb (by omega)
    omega
  · rw [if_neg hNm]
    have h1 : 1 ≤ ceilNat (N - o) (m - o) := one_le_ceilNat hb (by omega)
    omega

theorem chunkSpec_token_count (m o : Nat) (d : List Nat → String)
    (tokens : List Nat) (j : Nat) :
    (chunkSpec m o d tokens j).token_count =
      min (j * (m - o) + m) tokens.length - j * (m - o) := by
  simp only [chunkSpec, List.length_take, List.length_drop]
  omega

theorem closedForm_getLast (m o : Nat) (ho : o < m) (d : List Nat → String)
    (tokens : List Nat) (hN : 0 < tokens.length) :
    ∃ last,
      ((List.range (numChunks m o tokens.length)).map
          (chunkSpec m o d tokens)).getLast? = some last ∧
        last.end_token = (tokens.length : Int) := by
  rw [List.getLast?_eq_getElem?]
  have hlen : ((List.range (numChunks m o tokens.length)).map
      (chunkSpec m o d tokens)).length = numChunks m o tokens.length := by
    simp
  rw [hlen]
  have hpos := numChunks_pos (m := m) (o := o) hN
  have hlt : numChunks m o tokens.length - 1 < numChunks m o tokens.length := by
    omega
  rw [List.getElem?_map, List.getElem?_range hlt]
  refine ⟨_, rfl, ?_⟩
  have hle := numChunks_last_end (N := tokens.length) ho hN
  simp only [chunkSpec]
  rw [min_eq_right hle]

/-- C3: for every token sequence and every configuration with
`max_tokens > overlap_tokens ≥ 0`, `chunk_text` returns an empty sequence
on zero tokens; otherwise the final chunk ends at the token count, every
chunk holds at most `max_tokens` tokens, and the chunk count is
`ceil((N - overlap) / (max - overlap))` for `N > max_tokens` and 1
otherwise. -/
theorem c3_chunk_shape (m o : Nat) (ho : o < m) (d : List Nat → String)
    (tokens : List Nat) :
    (tokens.length = 0 →
      TextChunker.chunk_text ⟨(m : Int), (o : Int)⟩ d tokens = some []) ∧
    (0 < tokens.length → ∃ l,
      TextChunker.chunk_text ⟨(m : Int), (o : Int)⟩ d tokens = some l ∧
      l.length =
        (if tokens.length ≤ m then 1 else ceilNat (tokens.length - o) (m - o)) ∧
      (∀ ch ∈ l, ch.token_count ≤ m) ∧
      (∃ last, l.getLast? = some last ∧
        last.end_token = (tokens.length : Int))) := by
  constructor
  · intro h0
    rw [chunk_text_closed m o ho, numChunks, if_pos h0]
    simp
  · intro hN
    refine ⟨_, chunk_text_closed m o ho d tokens, ?_, ?_, ?_⟩
    · rw [← numChunks_formula ho hN]
      simp
    · intro ch hch
      simp only [List.mem_map, List.mem_range] at hch
      obtain ⟨j, hj, rfl⟩ := hch
      rw [chunkSpec_token_count]
      omega
    · exact closedForm_getLast m o ho d tokens hN

theorem c3_chunk_shape_witness :
    (2 : Nat) < 10 ∧
    ∃ l, TextChunker.chunk_text ⟨((10 : Nat) : Int), ((2 : Nat) : Int)⟩
        decode0 (List.range 20) = some l ∧ l.length = 3 := by
  refine ⟨by decide, ?_⟩
  obtain ⟨l, hl, hlen, -, -⟩ :=
    (c3_chunk_shape 10 2 (by decide) decode0 (List.range 20)).2 (by decide)
  exact ⟨l, hl, by rw [hlen]; decide⟩

/-- C5: for every non-empty input under `overlap < max`, consecutive chunks
overlap exactly when `overlap > 0` and abut exactly when `overlap = 0`, the
`end_token` values are strictly increasing across the sequence, and the
final chunk ends at the total token count. -/
theorem c5_chunk_invariants (m o : Nat) (ho : o < m) (d : List Nat → String)
    (tokens : List Nat) (ht : 0 < tokens.length) :
    ∃ l, TextChunker.chunk_text ⟨(m : Int), (o : Int)⟩ d tokens = some l ∧
      (∀ (i : Nat) (a b : Chunk), l[i]? = some a → l[i + 1]? = some b →
        (0 < o → b.start_token < a.end_token) ∧
        (o = 0 → b.start_token = a.end_token)) ∧
      l.Pairwise (fun c1 c2 => c1.end_token < c2.end_token) ∧
      (∃ last, l.getLast? = some last ∧
        last.end_token = (tokens.length : Int)) := by
  refine ⟨_, chunk_text_closed m o ho d tokens, ?_, ?_,
    closedForm_getLast m o ho d tokens ht⟩
  · intro i a b ha hb
    rw [List.getElem?_map] at ha hb
    have hlt1 : i + 1 < numChunks m o tokens.length := by
      by_contra hcon
      rw [List.getElem?_eq_none (by simpa using hcon)] at hb
      exact Option.noConfusion hb
    rw [List.getElem?_range (by omega), Option.map_some'] at ha
    rw [List.getElem?_range hlt1, Option.map_some'] at hb
    obtain rfl : chunkSpec m o d tokens i = a := Option.some.inj ha
    obtain rfl : chunkSpec m o d tokens (i + 1) = b := Option.some.inj hb
    have hmid := mid_end_lt ho ht hlt1
    have hdist : (i + 1) * (m - o) = i * (m - o) + (m - o) := by ring
    simp only [chunkSpec]
    rw [min_eq_left (by omega : i * (m - o) + m ≤ tokens.length)]
    constructor
    · intro hopos
      have : (i + 1) * (m - o) < i * (m - o) + m := by omega
      exact_mod_cast this
    · intro h0
      have : (i + 1) * (m - o) = i * (m - o) + m := by omega
      exact_mod_cast this
  · rw [List.pairwise_iff_getElem]
    intro i j hi hj hij
    simp only [List.length_map, List.length_range] at hi hj
    rw [List.getElem_map, List.getElem_map, List.getElem_range,
      List.getElem_range]
    have hmid : i * (m - o) + m < tokens.length :=
      mid_end_lt ho ht (by omega)
    have hmul : (i + 1) * (m - o) ≤ j * (m - o) :=
      Nat.mul_le_mul_right _ (by omega)
    have hdist : (i + 1) * (m - o) = i * (m - o) + (m - o) := by ring
    simp only [chunkSpec]
    have : min (i * (m - o) + m) tokens.length <
        min (j * (m - o) + m) tokens.length := by omega
    exact_mod_cast this

theorem c5_chunk_invariants_witness :
    (2 : Nat) < 10 ∧ 0 < (List.range 20).length ∧
    ∃ l, TextChunker.chunk_text ⟨((10 : Nat) : Int), ((2 : Nat) : Int)⟩
        decode0 (List.range 20) = some l ∧
      (∃ last, l.getLast? = some last ∧
        last.end_token = ((List.range 20).length : Int)) := by
  refine ⟨by decide, by decide, ?_⟩
  obtain ⟨l, hl, -, -, hlast⟩ :=
    c5_chunk_invariants 10 2 (by decide) decode0 (List.range 20) (by decide)
  exact ⟨l, hl, hlast⟩

/-- C8: under the precondition `overlap_tokens < max_tokens` the chunking
loop terminates on every input: the loop's result is some fixed chunk list
for every fuel bound above the token count, i.e. `chunk_text` is total
there. -/
theorem c8_termination (m o : Nat) (ho : o < m) (d : List Nat → String)
    (tokens : List Nat) :
    ∃ r, TextChunker.chunk_text ⟨(m : Int), (o : Int)⟩ d tokens = some r ∧
      ∀ fuel, tokens.length < fuel →
        chunkLoop ⟨(m : Int), (o : Int)⟩ d tokens fuel 0 0 = some r := by
  refine ⟨_, chunk_text_closed m o ho d tokens, ?_⟩
  intro fuel hfuel
  rw [show (0 : Int) = ((0 : Nat) : Int) from rfl,
    chunkLoop_eq_chunkLoopN m o ho d tokens]
  rcases Nat.eq_zero_or_pos tokens.length with hN | hN
  · obtain ⟨f2, rfl⟩ : ∃ f2, fuel = f2 + 1 := ⟨fuel - 1, by omega⟩
    rw [chunkLoopN, if_neg (by omega), numChunks, if_pos hN]
    simp
  · have hj : 0 * (m - o) < tokens.length := by rw [Nat.zero_mul]; omega
    have hk0 := kFrom_zero_le (N := tokens.length) ho hN
    have h := chunkLoopN_closed m o ho d tokens fuel 0 hj (by omega)
    rw [Nat.zero_mul] at h
    rw [h, numChunks, if_neg (by omega), List.range_eq_range']

theorem c8_termination_witness :
    (2 : Nat) < 10 ∧
    ∃ r, TextChunker.chunk_text ⟨((10 : Nat) : Int), ((2 : Nat) : Int)⟩
        decode0 (List.range 20) = some r ∧
      chunkLoop ⟨((10 : Nat) : Int), ((2 : Nat) : Int)⟩ decode0
        (List.range 20) 25 0 0 = some r := by
  refine ⟨by decide, ?_⟩
  obtain ⟨r, hr, hall⟩ := c8_termination 10 2 (by decide) decode0 (List.range 20)
  exact ⟨r, hr, hall 25 (by decide)⟩

/-- C9: chunking is deterministic — two calls of `chunk_text` with the same
configuration, the same tokenizer behaviour and the same token sequence
produce identical outputs, element for element. -/
theorem c9_determinism (cA cB : TextChunker) (dA dB : List Nat → String)
    (tA tB : List Nat) (hm : cA.max_tokens = cB.max_tokens)
    (hov : cA.overlap_tokens = cB.overlap_tokens) (hd : dA = dB)
    (ht : tA = tB) :
    TextChunker.chunk_text cA dA tA = TextChunker.chunk_text cB dB tB ∧
    ∀ i : Nat,
      (TextChunker.chunk_text cA dA tA).bind (fun l => l[i]?) =
        (TextChunker.chunk_text cB dB tB).bind (fun l => l[i]?) := by
  cases cA
  cases cB
  simp only at hm hov
  subst hm hov hd ht
  exact ⟨rfl, fun _ => rfl⟩

theorem c9_determinism_witness :
    TextChunker.chunk_text ⟨10, 2⟩ decode0 (List.range 20) =
      TextChunker.chunk_text ⟨10, 2⟩ decode0 (List.range 20) :=
  (c9_determinism ⟨10, 2⟩ ⟨10, 2⟩ decode0 decode0 (List.range 20)
    (List.range 20) rfl rfl rfl rfl).1

theorem chunkLoop_overlap_ge_max_none (d : List Nat → String)
    (tokens : List Nat) (h6 : 6 ≤ tokens.length) :
    ∀ (fuel : Nat) (start : Int), start ≤ 0 → ∀ ci,
      chunkLoop ⟨5, 10⟩ d tokens fuel start ci = none := by
  intro fuel
  induction fuel with
  | zero => intro start hs ci; rfl
  | succ fuel ih =>
    intro start hs ci
    rw [chunkLoop]
    have hlen : (6 : Int) ≤ (tokens.length : Int) := by exact_mod_cast h6
    rw [if_pos (by omega : start < (tokens.length : Int))]
    have hmin : min (start + (5 : Int)) (tokens.length : Int) = start + 5 :=
      min_eq_left (by omega)
    simp only [hmin]
    rw [if_neg (by omega : ¬ (tokens.length : Int) ≤ start + 5)]
    rw [ih (start + 5 - 10) (by omega) (ci + 1)]
    rfl

/-- C2: the constructor of the chunker accepts `max_tokens = 5,
`overlap_tokens = 10` without any `InvalidConfiguration` failure (the
configuration is stored unclamped), and with that configuration the
chunking loop never terminates on any input of at least 6 tokens — no fuel
bound suffices. -/
theorem c2_no_construction_validation :
    TextChunker.init 5 10 =
      .ok { max_tokens := 5, overlap_tokens := 10 } ∧
    ∀ (d : List Nat → String) (tokens : List Nat) (fuel : Nat),
      6 ≤ tokens.length →
      chunkLoop { max_tokens := 5, overlap_tokens := 10 } d tokens
        fuel 0 0 = none := by
  refine ⟨rfl, ?_⟩
  intro d tokens fuel h6
  exact chunkLoop_overlap_ge_max_none d tokens h6 fuel 0 (by omega) 0

theorem c2_no_construction_validation_witness :
    6 ≤ (List.range 6).length ∧
    chunkLoop { max_tokens := 5, overlap_tokens := 10 } decode0
      (List.range 6) 7 0 0 = none :=
  ⟨by decide,
    c2_no_construction_validation.2 decode0 (List.range 6) 7 (by decide)⟩

/-- C6: indexing an empty chunk sequence fails with the empty-input error
and is atomic — the failure carries the prior state unchanged, and that
prior state (when non-empty) is still queryable by `search`. -/
theorem c6_empty_input {V : Type} (encode : PyVal → V) (now : Nat)
    (ns : String) (s : PineconeState V) :
    VectorStore.index_chunks encode now [] ns s = .error (.emptyInput, s) ∧
    (0 < totalCount s →
      ∀ (S : Type)
        (pq : PineconeState V → V → Nat → String → List (VecMeta × S))
        (q : String) (tk : Nat),
        ∃ r, VectorStore.search encode pq q tk "" s = .ok r) := by
  constructor
  · rfl
  · intro hpos S pq q tk
    unfold VectorStore.search
    rw [if_neg (by simp), if_neg (by omega)]
    exact ⟨_, rfl⟩

theorem c6_empty_input_witness :
    VectorStore.index_chunks (fun _ => ()) 0 [] ""
        ⟨[("", ⟨⟨0, 0⟩, (), ⟨.str "t", .int 0, .int 1, 0⟩⟩)]⟩ =
      .error (.emptyInput,
        ⟨[("", ⟨⟨0, 0⟩, (), ⟨.str "t", .int 0, .int 1, 0⟩⟩)]⟩) ∧
    ∃ r, VectorStore.search (fun _ => ())
        (fun _ _ _ _ => ([] : List (VecMeta × Unit))) "q" 5 ""
        ⟨[("", ⟨⟨0, 0⟩, (), ⟨.str "t", .int 0, .int 1, 0⟩⟩)]⟩ = .ok r := by
  have h := c6_empty_input (V := Unit) (fun _ => ()) 0 ""
    ⟨[("", ⟨⟨0, 0⟩, (), ⟨.str "t", .int 0, .int 1, 0⟩⟩)]⟩
  exact ⟨h.1, h.2 (by decide) Unit (fun _ _ _ _ => []) "q" 5⟩

/-- C7: `search` on an index that holds no vectors — before any indexing,
or after `clear` — fails with the not-indexed error instead of returning a
result list. -/
theorem c7_not_indexed {V S : Type} (encode : PyVal → V)
    (pq : PineconeState V → V → Nat → String → List (VecMeta × S))
    (q : String) (tk : Nat) (ns : String) (s : PineconeState V) :
    (totalCount s = 0 →
      VectorStore.search encode pq q tk ns s = .error .notIndexed) ∧
    VectorStore.search encode pq q tk ns (VectorStore.clear "" s) =
      .error .notIndexed := by
  have key : ∀ (s2 : PineconeState V), totalCount s2 = 0 →
      VectorStore.search encode pq q tk ns s2 = .error .notIndexed := by
    intro s2 h0
    have hvec : s2.vectors = [] := List.length_eq_zero.mp h0
    unfold VectorStore.search
    by_cases hns : ns ≠ ""
    · rw [if_pos hns, if_pos (by simp [nsCount, hvec])]
    · rw [if_neg hns, if_pos h0]
  refine ⟨key s, ?_⟩
  apply key
  unfold VectorStore.clear
  rw [if_neg (by simp)]
  rfl

theorem c7_not_indexed_witness :
    totalCount (⟨[]⟩ : PineconeState Unit) = 0 ∧
    VectorStore.search (fun _ => ())
      (fun _ _ _ _ => ([] : List (VecMeta × Unit))) "q" 3 "" ⟨[]⟩ =
      .error .notIndexed :=
  ⟨rfl,
    (c7_not_indexed (fun _ => ()) (fun _ _ _ _ => []) "q" 3 "" ⟨[]⟩).1 rfl⟩

theorem mapM_dictGet_text_ok :
    ∀ (chunks : List Dict),
      (∀ c ∈ chunks, (c.lookup "text").isSome) →
      ∃ ts, chunks.mapM (fun c => dictGet c "text") = .ok ts ∧
        ts.length = chunks.length := by
  intro chunks
  induction chunks with
  | nil => intro _; exact ⟨[], rfl, rfl⟩
  | cons c rest ih =>
    intro h
    obtain ⟨v, hv⟩ := Option.isSome_iff_exists.mp (h c (by simp))
    obtain ⟨ts, hts, hlen⟩ := ih (fun x hx => h x (by simp [hx]))
    refine ⟨v :: ts, ?_, by simp [hlen]⟩
    rw [List.mapM_cons, show dictGet c "text" = .ok v from by
      simp [dictGet, hv], hts]
    rfl

theorem buildVectors_ok {V : Type} (now : Nat) :
    ∀ (pairs : List (Dict × V)) (i : Nat),
      (∀ p ∈ pairs, (p.1.lookup "text").isSome ∧
        (p.1.lookup "start").isSome ∧ (p.1.lookup "end").isSome) →
      ∃ vs, VectorStore.buildVectors now i pairs = .ok vs ∧
        vs.map PVector.id =
          (List.range' i pairs.length).map (fun j => ⟨j, now⟩) := by
  intro pairs
  induction pairs with
  | nil => intro i _; exact ⟨[], rfl, rfl⟩
  | cons p rest ih =>
    intro i h
    obtain ⟨c, emb⟩ := p
    obtain ⟨ht, hs, he⟩ := h (c, emb) (by simp)
    obtain ⟨vt, hvt⟩ := Option.isSome_iff_exists.mp ht
    obtain ⟨vStart, hvst⟩ := Option.isSome_iff_exists.mp hs
    obtain ⟨vEnd, hven⟩ := Option.isSome_iff_exists.mp he
    obtain ⟨vs, hvs, hids⟩ := ih (i + 1) (fun x hx => h x (by simp [hx]))
    refine ⟨{ id := ⟨i, now⟩, values := emb,
              metadata := { text := vt, start := vStart, end_ := vEnd,
                            chunk_index := i } } :: vs, ?_, ?_⟩
    · rw [VectorStore.buildVectors,
        show dictGet c "text" = .ok vt from by simp [dictGet, hvt],
        show dictGet c "start" = .ok vStart from by simp [dictGet, hvst],
        show dictGet c "end" = .ok vEnd from by simp [dictGet, hven], hvs]
      rfl
    · simp [List.range'_succ, hids]

theorem pcDeleteAll_not_ns {V : Type} (ns : String) (s : PineconeState V) :
    ∀ e ∈ (pcDeleteAll ns s).vectors, e.1 ≠ ns := by
  intro e he
  simp only [pcDeleteAll, List.mem_filter, bne_iff_ne, ne_eq] at he
  exact he.2

theorem pcUpsertList_fresh {V : Type} (ns : String) :
    ∀ (vs : List (PVector V)) (s : PineconeState V),
      (vs.map PVector.id).Nodup →
      (∀ v ∈ vs, ∀ e ∈ s.vectors, e.1 = ns → e.2.id ≠ v.id) →
      (pcUpsertList ns vs s).vectors =
        s.vectors ++ vs.map (fun v => (ns, v)) := by
  intro vs
  induction vs with
  | nil => intro s _ _; simp [pcUpsertList]
  | cons v rest ih =>
    intro s h1 h2
    have hany : s.vectors.any (fun e => e.1 == ns && e.2.id == v.id) = false := by
      rw [List.any_eq_false]
      intro e he
      simp only [Bool.and_eq_true, beq_iff_eq, not_and]
      intro hens hid
      exact h2 v (by simp) e he hens hid
    show (pcUpsertList ns rest (pcUpsertOne ns v s)).vectors = _
    rw [pcUpsertOne, if_neg (by simp [hany])]
    rw [ih ⟨s.vectors ++ [(ns, v)]⟩ (by
        simpa using (List.nodup_cons.mp (by simpa using h1)).2)
      (by
        intro v' hv' e he hens
        rcases List.mem_append.mp he with hin | hin
        · exact h2 v' (by simp [hv']) e hin hens
        · have hev : e = (ns, v) := by simpa using hin
          subst hev
          intro hEq
          have hnotin : v.id ∉ rest.map PVector.id :=
            (List.nodup_cons.mp (by simpa using h1)).1
          exact hnotin (hEq ▸ List.mem_map_of_mem PVector.id hv'))]
    simp

theorem index_chunks_ns_replaces {V : Type} (encode : PyVal → V) (now : Nat)
    (ns : String) (hns : ns ≠ "") (chunks : List Dict) (hne : chunks ≠ [])
    (hwf : ∀ c ∈ chunks, (c.lookup "text").isSome ∧
      (c.lookup "start").isSome ∧ (c.lookup "end").isSome)
    (s : PineconeState V) :
    ∃ s', VectorStore.index_chunks encode now chunks ns s = .ok s' ∧
      nsCount ns s' = chunks.length := by
  obtain ⟨ts, hts, htlen⟩ :=
    mapM_dictGet_text_ok chunks (fun c hc => (hwf c hc).1)
  have hzlen : (chunks.zip (ts.map encode)).length = chunks.length := by
    simp [htlen]
  have hpairs : ∀ p ∈ chunks.zip (ts.map encode),
      (p.1.lookup "text").isSome ∧ (p.1.lookup "start").isSome ∧
        (p.1.lookup "end").isSome := by
    intro p hp
    obtain ⟨c, emb⟩ := p
    exact hwf _ (List.of_mem_zip hp).1
  obtain ⟨vs, hvs, hids⟩ :=
    buildVectors_ok now (chunks.zip (ts.map encode)) 0 hpairs
  have hvslen : vs.length = chunks.length := by
    have hc := congrArg List.length hids
    simpa [hzlen] using hc
  have hnodup : (vs.map PVector.id).Nodup := by
    rw [hids]
    refine List.Nodup.map ?_ (List.nodup_range' _ _)
    intro a b hab
    simpa using congrArg VecId.idx hab
  have hfresh : ∀ v ∈ vs, ∀ e ∈ (pcDeleteAll ns s).vectors,
      e.1 = ns → e.2.id ≠ v.id := by
    intro v hv e he hens
    exact absurd hens (pcDeleteAll_not_ns ns s e he)
  have hlist := pcUpsertList_fresh ns vs (pcDeleteAll ns s) hnodup hfresh
  have hne' : chunks.isEmpty = false := by
    cases chunks with
    | nil => exact absurd rfl hne
    | cons a b => rfl
  have hcond : (if ns ≠ "" then pcDeleteAll ns s else s) = pcDeleteAll ns s :=
    if_pos hns
  refine ⟨pcUpsertList ns vs (pcDeleteAll ns s), ?_, ?_⟩
  · unfold VectorStore.index_chunks
    rw [hne']
    simp only [Bool.false_eq_true, if_false, hcond, hts, hvs]
  · unfold nsCount
    rw [hlist, List.filter_append, List.length_append]
    have hf1 : (pcDeleteAll ns s).vectors.filter (fun e => e.1 == ns) = [] := by
      rw [List.filter_eq_nil_iff]
      intro e he
      simpa using pcDeleteAll_not_ns ns s e he
    have hf2 : (vs.map (fun v => (ns, v))).filter (fun e => e.1 == ns) =
        vs.map (fun v => (ns, v)) := by
      rw [List.filter_eq_self]
      intro e he
      obtain ⟨v, hv, rfl⟩ := List.mem_map.mp he
      simp
    rw [hf1, hf2]
    simp [hvslen]

/-- C1 counterexample: with the default empty namespace (the one the
application's search endpoint uses), two successive successful `index`
calls with 2 and then 3 chunks leave `stats` reporting 5 = |A| + |B|
vectors, not |B| = 3 — the prior contents are not removed. -/
theorem c1_replacement_counterexample :
    ((VectorStore.index_chunks (fun _ => ()) 0
        [[("text", .str "a0"), ("start", .int 0), ("end", .int 2)],
         [("text", .str "a1"), ("start", .int 2), ("end", .int 4)]]
        "" ⟨[]⟩).bind
      (fun sA => VectorStore.index_chunks (fun _ => ()) 1
        [[("text", .str "b0"), ("start", .int 0), ("end", .int 2)],
         [("text", .str "b1"), ("start", .int 2), ("end", .int 4)],
         [("text", .str "b2"), ("start", .int 4), ("end", .int 6)]]
        "" sA)).map VectorStore.get_stats = .ok (2 + 3) ∧
    ¬ ((VectorStore.index_chunks (fun _ => ()) 0
        [[("text", .str "a0"), ("start", .int 0), ("end", .int 2)],
         [("text", .str "a1"), ("start", .int 2), ("end", .int 4)]]
        "" ⟨[]⟩).bind
      (fun sA => VectorStore.index_chunks (fun _ => ()) 1
        [[("text", .str "b0"), ("start", .int 0), ("end", .int 2)],
         [("text", .str "b1"), ("start", .int 2), ("end", .int 4)],
         [("text", .str "b2"), ("start", .int 4), ("end", .int 6)]]
        "" sA)).map VectorStore.get_stats = .ok 3 := by
  refine ⟨rfl, fun h => ?_⟩
  have h5 : (Except.ok (2 + 3) :
      Except (VSError × PineconeState Unit) Nat) = .ok 3 := by
    rw [← h]
    rfl
  exact absurd (Except.ok.inj h5) (by decide)

/-- C1 amended: the replacement invariant holds per non-empty namespace —
a successful `index` call into a non-empty namespace first deletes every
vector of that namespace, so after two successive calls with chunk sets A
then B the namespace's vector count is |B|, never |A| + |B|.  (With the
default empty namespace the delete is skipped and vectors accumulate, as
the counterexample shows.) -/
theorem c1_namespaced_replacement {V : Type} (encode : PyVal → V)
    (now1 now2 : Nat) (ns : String) (hns : ns ≠ "")
    (A B : List Dict) (hA : A ≠ []) (hB : B ≠ [])
    (hwfA : ∀ c ∈ A, (c.lookup "text").isSome ∧
      (c.lookup "start").isSome ∧ (c.lookup "end").isSome)
    (hwfB : ∀ c ∈ B, (c.lookup "text").isSome ∧
      (c.lookup "start").isSome ∧ (c.lookup "end").isSome)
    (s : PineconeState V) :
    ∃ sA sB, VectorStore.index_chunks encode now1 A ns s = .ok sA ∧
      nsCount ns sA = A.length ∧
      VectorStore.index_chunks encode now2 B ns sA = .ok sB ∧
      nsCount ns sB = B.length := by
  obtain ⟨sA, h1, h2⟩ :=
    index_chunks_ns_replaces encode now1 ns hns A hA hwfA s
  obtain ⟨sB, h3, h4⟩ :=
    index_chunks_ns_replaces encode now2 ns hns B hB hwfB sA
  exact ⟨sA, sB, h1, h2, h3, h4⟩

theorem c1_namespaced_replacement_witness :
    ("n" : String) ≠ "" ∧
    ∃ sA sB : PineconeState Unit,
      VectorStore.index_chunks (fun _ => ()) 0
          [[("text", .str "a0"), ("start", .int 0), ("end", .int 2)],
           [("text", .str "a1"), ("start", .int 2), ("end", .int 4)]]
          "n" ⟨[]⟩ = .ok sA ∧
        nsCount "n" sA = 2 ∧
        VectorStore.index_chunks (fun _ => ()) 1
          [[("text", .str "b0"), ("start", .int 0), ("end", .int 2)],
           [("text", .str "b1"), ("start", .int 2), ("end", .int 4)],
           [("text", .str "b2"), ("start", .int 4), ("end", .int 6)]]
          "n" sA = .ok sB ∧
        nsCount "n" sB = 3 := by
  refine ⟨by decide, ?_⟩
  exact c1_namespaced_replacement (V := Unit) (fun _ => ()) 0 1 "n"
    (by decide)
    [[("text", .str "a0"), ("start", .int 0), ("end", .int 2)],
     [("text", .str "a1"), ("start", .int 2), ("end", .int 4)]]
    [[("text", .str "b0"), ("start", .int 0), ("end", .int 2)],
     [("text", .str "b1"), ("start", .int 2), ("end", .int 4)],
     [("text", .str "b2"), ("start", .int 4), ("end", .int 6)]]
    (by decide) (by decide) (by decide) (by decide) ⟨[]⟩

theorem index_chunks_toDict_fails {V : Type} (encode : PyVal → V) (now : Nat)
    (s : PineconeState V) (l : List Chunk) (hl : l ≠ []) :
    VectorStore.index_chunks encode now (l.map Chunk.toDict) "" s =
      .error (.keyError "start", s) := by
  obtain ⟨c0, rest, rfl⟩ : ∃ c0 rest, l = c0 :: rest := by
    cases l with
    | nil => exact absurd rfl hl
    | cons a b => exact ⟨a, b, rfl⟩
  have htext : ∀ c ∈ (c0 :: rest).map Chunk.toDict,
      (List.lookup "text" c).isSome = true := by
    intro c hc
    obtain ⟨ch, hch, rfl⟩ := List.mem_map.mp hc
    rfl
  obtain ⟨ts, hts, htlen⟩ := mapM_dictGet_text_ok _ htext
  obtain ⟨t0, ts', rfl⟩ : ∃ t0 ts', ts = t0 :: ts' := by
    cases ts with
    | nil => simp at htlen
    | cons a b => exact ⟨a, b, rfl⟩
  have hbuild : VectorStore.buildVectors now 0
      (((c0 :: rest).map Chunk.toDict).zip ((t0 :: ts').map encode)) =
        .error (.keyError "start") := by
    have hzip : ((c0 :: rest).map Chunk.toDict).zip ((t0 :: ts').map encode) =
        (Chunk.toDict c0, encode t0) ::
          ((rest.map Chunk.toDict).zip (ts'.map encode)) := rfl
    rw [hzip, VectorStore.buildVectors,
      show dictGet (Chunk.toDict c0) "text" = .ok (.str c0.text) from rfl,
      show dictGet (Chunk.toDict c0) "start" =
        .error (.keyError "start") from rfl]
    rfl
  unfold VectorStore.index_chunks
  rw [show ((c0 :: rest).map Chunk.toDict).isEmpty = false from rfl]
  simp only [Bool.false_eq_true, if_false,
    if_neg (show ¬ ("" : String) ≠ "" by simp), hts, hbuild]

/-- C10: every non-empty chunk sequence produced by the chunker carries
the keys `start_token`/`end_token` but not `start`/`end`, so feeding it
directly to `index_chunks` (as the application's search endpoint does,
with the default namespace) raises a `KeyError` on `'start'` before any
vector is stored — the state is left unchanged. -/
theorem c10_pipeline_key_mismatch (m o : Nat) (ho : o < m)
    (d : List Nat → String) (tokens : List Nat) (ht : 0 < tokens.length)
    {V : Type} (encode : PyVal → V) (now : Nat) (s : PineconeState V) :
    ∃ l, TextChunker.chunk_text ⟨(m : Int), (o : Int)⟩ d tokens = some l ∧
      l ≠ [] ∧
      (∀ c ∈ l, (Chunk.toDict c).lookup "start" = none ∧
        (Chunk.toDict c).lookup "end" = none) ∧
      VectorStore.index_chunks encode now (l.map Chunk.toDict) "" s =
        .error (.keyError "start", s) := by
  have hnil : (List.range (numChunks m o tokens.length)).map
      (chunkSpec m o d tokens) ≠ [] := by
    have hpos := numChunks_pos (m := m) (o := o) ht
    intro hcon
    have hlen := congrArg List.length hcon
    simp at hlen
    omega
  refine ⟨_, chunk_text_closed m o ho d tokens, hnil, ?_,
    index_chunks_toDict_fails encode now s _ hnil⟩
  intro c hc
  exact ⟨rfl, rfl⟩

theorem c10_pipeline_key_mismatch_witness :
    (1 : Nat) < 3 ∧ 0 < (List.range 5).length ∧
    ∃ l, TextChunker.chunk_text ⟨((3 : Nat) : Int), ((1 : Nat) : Int)⟩
        decode0 (List.range 5) = some l ∧
      VectorStore.index_chunks (fun _ => ()) 7 (l.map Chunk.toDict) ""
          (⟨[]⟩ : PineconeState Unit) =
        .error (.keyError "start", ⟨[]⟩) := by
  refine ⟨by decide, by decide, ?_⟩
  obtain ⟨l, hl, -, -, hfail⟩ :=
    c10_pipeline_key_mismatch 3 1 (by decide) decode0 (List.range 5)
      (by decide) (V := Unit) (fun _ => ()) 7 ⟨[]⟩
  exact ⟨l, hl, hfail⟩
